import Mathlib

/-!
# Verification of the keyed-record reconciliation layer of `common_ephys.py`

This file embeds, in Lean 4, the data model and the operations of
`nwb_datajoint/common/common_ephys.py` that the specification talks about:

* the keyed reconciliation function `dj_replace` (defined in
  `dj_helper_fn.py`, outside the sources at hand; it is modelled from the
  specification's §4.1 contract),
* the table-mutating methods `ElectrodeSortingInfo.initialize`,
  `set_group_by_shank`, `set_group_by_electrode_group`,
  `set_reference_from_electrodes`, `set_reference_from_list`,
  `LFPElectrode.set_lfp_electrodes`, `Unit.insert_from_nwbfile` and the
  error-handling prefix of `LFP.make`,
* the duplicate-key policies of every `insert`/`insert1` call site of the
  module.

Records are modelled as association lists from field names to values, the
record store as lists of rows, and Python exceptions (`KeyError`,
`IndexError`) as `Except`/explicit error fields.
-/

namespace Spyglass

/-- A field value of a record: Python scalars (int, str) and the interval
arrays stored in `valid_times`. -/
inductive Val where
  | int  (i : Int)
  | str  (s : String)
  | ivls (a : List (Int × Int))
deriving DecidableEq, Repr

/-- A record (one row, or one Python dict): an association list from field
names to values.  Well-formed records bind each field name at most once. -/
abbrev Record := List (String × Val)

/-- Look a field up in a record (Python `record[field]` read, as an
`Option`). -/
def getField : Record → String → Option Val
  | [], _ => none
  | (a, v) :: rest, g => if a = g then some v else getField rest g

/-- Overwrite the value of an existing field, leaving every other binding
(and the binding order) unchanged.  A field that is not bound is left
absent. -/
def setField : Record → String → Val → Record
  | [], _, _ => []
  | (a, b) :: rest, f, v =>
    if a = f then (f, v) :: setField rest f v else (a, b) :: setField rest f v

/-- Python dict assignment `d[f] = v`: overwrite the binding if present,
append it otherwise. -/
def dictSet (d : Record) (f : String) (v : Val) : Record :=
  if (getField d f).isSome then setField d f v else d ++ [(f, v)]

/-- The value paired with the LAST occurrence of key `k` in the update-pair
list (last-write-wins, by position), `none` when `k` does not occur. -/
def lastLookup (u : List (Val × Val)) (k : Val) : Option Val :=
  match u with
  | [] => none
  | p :: rest =>
    match lastLookup rest k with
    | some v => some v
    | none => if p.1 = k then some p.2 else none

/-- Modelled from the spec: `dj_replace` of `dj_helper_fn.py` (the keyed
reconciliation function; its defining file is not among the sources, only
its callers in `common_ephys.py` are).  Following §4.1 of the
specification: the result is a new sequence of the same length and order
as `existing`; each record whose `key_field` value appears among the
update pairs has `value_field` overwritten with the paired value
(last-write-wins, by position, for duplicate update keys); all other
fields and all non-matching records are copied unchanged; update pairs
whose key matches no record are ignored.  `reconcileStep` is the
per-record transformation; `reconcile` maps it over the sequence. -/
def reconcileStep (updates : List (Val × Val)) (key_field value_field : String)
    (r : Record) : Record :=
  match getField r key_field with
  | none => r
  | some k =>
    match lastLookup updates k with
    | none => r
    | some v => setField r value_field v

/-- Modelled from the spec: the reconciliation function proper (see the
doc comment of `reconcileStep`). -/
def reconcile (existing : List Record) (updates : List (Val × Val))
    (key_field value_field : String) : List Record :=
  existing.map (reconcileStep updates key_field value_field)

/-! ## Basic lemmas about fields and reconciliation -/

theorem getField_setField_ne (r : Record) (f g : String) (v : Val)
    (h : f ≠ g) : getField (setField r f v) g = getField r g := by
  induction r with
  | nil => rfl
  | cons p rest ih =>
    obtain ⟨a, b⟩ := p
    by_cases hp : a = f
    · subst hp
      simp [setField, getField, h, ih]
    · by_cases hg : a = g
      · simp [setField, getField, hp, hg, Ne.symm h]
      · simp [setField, getField, hp, hg, ih]

theorem getField_setField_same (r : Record) (f : String) (v : Val)
    (h : (getField r f).isSome) : getField (setField r f v) f = some v := by
  induction r with
  | nil => simp [getField] at h
  | cons p rest ih =>
    obtain ⟨a, b⟩ := p
    by_cases hp : a = f
    · subst hp
      simp [setField, getField]
    · have h' : (getField rest f).isSome := by simpa [getField, hp] using h
      simp [setField, getField, hp, ih h']

theorem lastLookup_eq_none (u : List (Val × Val)) (k : Val)
    (h : ∀ p ∈ u, p.1 ≠ k) : lastLookup u k = none := by
  induction u with
  | nil => rfl
  | cons p rest ih =>
    simp only [lastLookup]
    rw [ih (fun q hq => h q (List.mem_cons_of_mem p hq))]
    rw [if_neg (h p (List.mem_cons_self p rest))]

theorem lastLookup_eq_filter (u : List (Val × Val)) (k : Val) :
    lastLookup u k =
      ((u.filter (fun p => decide (p.1 = k))).map Prod.snd).getLast? := by
  induction u with
  | nil => rfl
  | cons p rest ih =>
    by_cases hp : p.1 = k
    · simp only [lastLookup, ih, List.filter_cons, hp, decide_True, if_true,
        List.map_cons]
      cases hrest : ((rest.filter (fun p => decide (p.1 = k))).map Prod.snd) with
      | nil => simp [hrest]
      | cons a l =>
        obtain ⟨v, hv⟩ := Option.isSome_iff_exists.mp
          (List.getLast?_isSome.mpr (List.cons_ne_nil a l))
        rw [List.getLast?_cons_cons, hv]
    · simp only [lastLookup, ih, List.filter_cons, hp, decide_False,
        Bool.false_eq_true, if_false, ite_false]
      cases ((rest.filter (fun p => decide (p.1 = k))).map Prod.snd).getLast? <;> rfl

/-- The `value_field` of the `i`-th output record (`none` when the index is
out of range or the field absent). -/
def fieldAt (rows : List Record) (i : Nat) (f : String) : Option Val :=
  (rows[i]?).bind (fun r => getField r f)

/-- The three-record collection of the specification's §8 scenarios:
`E = [{id:1,val:"a"},{id:2,val:"b"},{id:3,val:"c"}]`. -/
def exRecords : List Record :=
  [[("id", Val.int 1), ("val", Val.str "a")],
   [("id", Val.int 2), ("val", Val.str "b")],
   [("id", Val.int 3), ("val", Val.str "c")]]

theorem reconcileStep_nokey (U : List (Val × Val)) (kf vf : String)
    (r : Record) (hk : getField r kf = none) :
    reconcileStep U kf vf r = r := by
  unfold reconcileStep
  rw [hk]

theorem reconcileStep_nomatch (U : List (Val × Val)) (kf vf : String)
    (r : Record) (k : Val) (hk : getField r kf = some k)
    (hU : lastLookup U k = none) : reconcileStep U kf vf r = r := by
  unfold reconcileStep
  rw [hk]
  show (match lastLookup U k with
        | none => r
        | some v => setField r vf v) = r
  rw [hU]

theorem reconcileStep_match (U : List (Val × Val)) (kf vf : String)
    (r : Record) (k v : Val) (hk : getField r kf = some k)
    (hU : lastLookup U k = some v) :
    reconcileStep U kf vf r = setField r vf v := by
  unfold reconcileStep
  rw [hk]
  show (match lastLookup U k with
        | none => r
        | some v => setField r vf v) = setField r vf v
  rw [hU]

theorem reconcile_getElem (E : List Record) (U : List (Val × Val))
    (kf vf : String) (i : Nat) (r : Record) (h : E[i]? = some r) :
    (reconcile E U kf vf)[i]? = some (reconcileStep U kf vf r) := by
  unfold reconcile
  rw [List.getElem?_map, h]
  rfl

theorem lastLookup_of_filter_concat (U : List (Val × Val)) (k x : Val)
    (ps : List (Val × Val))
    (h : U.filter (fun p => decide (p.1 = k)) = ps ++ [(k, x)]) :
    lastLookup U k = some x := by
  rw [lastLookup_eq_filter, h, List.map_append]
  simp

theorem lastLookup_of_filter_singleton (U : List (Val × Val)) (k x : Val)
    (h : U.filter (fun p => decide (p.1 = k)) = [(k, x)]) :
    lastLookup U k = some x :=
  lastLookup_of_filter_concat U k x [] h

/-! ## C1 — the reconciliation contract (`dj_replace`, spec §4.1) -/

/-- C1: for every sequence of existing records `E` and every sequence of
update pairs `U`, `reconcile E U kf vf` returns a sequence of the same
length and order as `E`; each record whose key appears in `U` (here:
exactly once, paired with `x`) is its input record with `vf` overwritten
by `x` and every other field unchanged, and each record whose key matches
no update pair is copied unchanged. -/
theorem reconcile_contract (E : List Record) (U : List (Val × Val))
    (kf vf : String) :
    (reconcile E U kf vf).length = E.length ∧
    ∀ (i : Nat) (r : Record), E[i]? = some r → ∀ k : Val,
      getField r kf = some k →
      ((∀ p ∈ U, p.1 ≠ k) → (reconcile E U kf vf)[i]? = some r) ∧
      (∀ x : Val, U.filter (fun p => decide (p.1 = k)) = [(k, x)] →
        (reconcile E U kf vf)[i]? = some (setField r vf x) ∧
        ∀ g : String, g ≠ vf → getField (setField r vf x) g = getField r g) := by
  refine ⟨by simp [reconcile], ?_⟩
  intro i r h k hk
  constructor
  · intro hnone
    rw [reconcile_getElem E U kf vf i r h,
      reconcileStep_nomatch U kf vf r k hk (lastLookup_eq_none U k hnone)]
  · intro x hx
    refine ⟨?_, ?_⟩
    · rw [reconcile_getElem E U kf vf i r h,
        reconcileStep_match U kf vf r k x hk
          (lastLookup_of_filter_singleton U k x hx)]
    · intro g hg
      exact getField_setField_ne r vf g x (fun hvg => hg hvg.symm)

/-- Witness for C1, at the specification's §8 scenario
`U = [(2,"z")]`: the length is preserved and record 2 becomes
`{id:2,val:"z"}` while record 1 is returned unchanged. -/
theorem reconcile_contract_witness :
    (reconcile exRecords [(Val.int 2, Val.str "z")] "id" "val").length =
      exRecords.length ∧
    (reconcile exRecords [(Val.int 2, Val.str "z")] "id" "val")[1]? =
      some (setField [("id", Val.int 2), ("val", Val.str "b")] "val"
        (Val.str "z")) ∧
    (reconcile exRecords [(Val.int 2, Val.str "z")] "id" "val")[0]? =
      some [("id", Val.int 1), ("val", Val.str "a")] :=
  ⟨(reconcile_contract exRecords [(Val.int 2, Val.str "z")] "id" "val").1,
   (((reconcile_contract exRecords [(Val.int 2, Val.str "z")] "id" "val").2
      1 [("id", Val.int 2), ("val", Val.str "b")] (by decide) (Val.int 2)
      (by decide)).2 (Val.str "z") (by decide)).1,
   ((reconcile_contract exRecords [(Val.int 2, Val.str "z")] "id" "val").2
      0 [("id", Val.int 1), ("val", Val.str "a")] (by decide) (Val.int 1)
      (by decide)).1 (by decide)⟩

/-! ## C2 — reconciliation neither introduces nor drops keys -/

/-- C2: reconciliation never introduces new key values and never drops
existing records: the sequence (hence the multiset) of `key_field` values
of the output equals that of `E`, and every record whose key matches no
update pair appears in the output exactly equal to its input.  The key
field and the rewritten value field are distinct named fields of the
schema (`kf ≠ vf`). -/
theorem reconcile_key_invariant (E : List Record) (U : List (Val × Val))
    (kf vf : String) (hkv : kf ≠ vf) :
    (reconcile E U kf vf).map (fun r => getField r kf) =
      E.map (fun r => getField r kf) ∧
    (((reconcile E U kf vf).map (fun r => getField r kf) : List (Option Val))
        : Multiset (Option Val)) =
      ((E.map (fun r => getField r kf) : List (Option Val))
        : Multiset (Option Val)) ∧
    ∀ (i : Nat) (r : Record), E[i]? = some r →
      (∀ p ∈ U, getField r kf ≠ some p.1) →
      (reconcile E U kf vf)[i]? = some r := by
  have hmap : (reconcile E U kf vf).map (fun r => getField r kf) =
      E.map (fun r => getField r kf) := by
    unfold reconcile
    rw [List.map_map]
    apply List.map_congr_left
    intro r _
    simp only [Function.comp]
    cases hk : getField r kf with
    | none =>
      rw [reconcileStep_nokey U kf vf r hk]
      exact hk
    | some k =>
      cases hU : lastLookup U k with
      | none =>
        rw [reconcileStep_nomatch U kf vf r k hk hU]
        exact hk
      | some v =>
        rw [reconcileStep_match U kf vf r k v hk hU,
          getField_setField_ne r vf kf v (Ne.symm hkv)]
        exact hk
  refine ⟨hmap, by rw [hmap], ?_⟩
  intro i r h hU
  rw [reconcile_getElem E U kf vf i r h]
  cases hk : getField r kf with
  | none => rw [reconcileStep_nokey U kf vf r hk]
  | some k =>
    rw [reconcileStep_nomatch U kf vf r k hk
      (lastLookup_eq_none U k
        (fun p hp hpk => hU p hp (by rw [hpk]; exact hk)))]

/-- Witness for C2 at the §8 scenario `U = [(2,"z")]`: the key column is
unchanged and record 1 (key not updated) is returned exactly. -/
theorem reconcile_key_invariant_witness :
    (reconcile exRecords [(Val.int 2, Val.str "z")] "id" "val").map
        (fun r => getField r "id") =
      exRecords.map (fun r => getField r "id") ∧
    (reconcile exRecords [(Val.int 2, Val.str "z")] "id" "val")[0]? =
      some [("id", Val.int 1), ("val", Val.str "a")] :=
  ⟨(reconcile_key_invariant exRecords [(Val.int 2, Val.str "z")] "id" "val"
      (by decide)).1,
   (reconcile_key_invariant exRecords [(Val.int 2, Val.str "z")] "id" "val"
      (by decide)).2.2 0 [("id", Val.int 1), ("val", Val.str "a")]
      (by decide) (by decide)⟩

/-! ## C4 — duplicate update keys: last-write-wins by position -/

/-- C4: when the update pairs matching a record's key end (in position
order) with the pair `(k, x)` — in particular when two or more pairs carry
the same key — the record's `value_field` ends with `x`, the value of the
last matching pair; at the §8 scenario `U = [(1,"x"),(1,"y")]` record 1
ends with value `"y"`. -/
theorem reconcile_last_write_wins (E : List Record) (U : List (Val × Val))
    (kf vf : String) :
    (∀ (i : Nat) (r : Record), E[i]? = some r → ∀ k : Val,
      getField r kf = some k → (getField r vf).isSome →
      ∀ (ps : List (Val × Val)) (x : Val),
        U.filter (fun p => decide (p.1 = k)) = ps ++ [(k, x)] →
        fieldAt (reconcile E U kf vf) i vf = some x) ∧
    fieldAt (reconcile exRecords
      [(Val.int 1, Val.str "x"), (Val.int 1, Val.str "y")] "id" "val")
      0 "val" = some (Val.str "y") := by
  constructor
  · intro i r h k hk hvf ps x hx
    unfold fieldAt
    rw [reconcile_getElem E U kf vf i r h,
      reconcileStep_match U kf vf r k x hk
        (lastLookup_of_filter_concat U k x ps hx)]
    exact getField_setField_same r vf x hvf
  · decide

/-- Witness for C4: the general last-write-wins statement applied at the
§8 scenario `E`, `U = [(1,"x"),(1,"y")]`, record index 0. -/
theorem reconcile_last_write_wins_witness :
    fieldAt (reconcile exRecords
      [(Val.int 1, Val.str "x"), (Val.int 1, Val.str "y")] "id" "val")
      0 "val" = some (Val.str "y") :=
  (reconcile_last_write_wins exRecords
      [(Val.int 1, Val.str "x"), (Val.int 1, Val.str "y")] "id" "val").1
    0 [("id", Val.int 1), ("val", Val.str "a")] (by decide) (Val.int 1)
    (by decide) (by decide) [(Val.int 1, Val.str "x")] (Val.str "y")
    (by decide)

/-! ## C5 — update pairs with unknown keys are ignored -/

/-- C5: when every update pair's key is absent from `E`, reconciliation
returns `E` unchanged (the unmatched updates are ignored; the total model
raises no exception and swallows none); at the §8 scenario
`U = [(4,"z")]` the output equals `E`. -/
theorem reconcile_unknown_keys (E : List Record) (U : List (Val × Val))
    (kf vf : String)
    (h : ∀ r ∈ E, ∀ p ∈ U, getField r kf ≠ some p.1) :
    reconcile E U kf vf = E ∧
    reconcile exRecords [(Val.int 4, Val.str "z")] "id" "val" = exRecords := by
  constructor
  · unfold reconcile
    induction E with
    | nil => rfl
    | cons r rest ih =>
      simp only [List.map_cons]
      have hr : ∀ p ∈ U, getField r kf ≠ some p.1 :=
        h r (List.mem_cons_self r rest)
      have hhead : reconcileStep U kf vf r = r := by
        cases hk : getField r kf with
        | none => exact reconcileStep_nokey U kf vf r hk
        | some k =>
          exact reconcileStep_nomatch U kf vf r k hk
            (lastLookup_eq_none U k
              (fun p hp hpk => hr p hp (by rw [hpk]; exact hk)))
      rw [hhead, ih (fun r' hr' => h r' (List.mem_cons_of_mem r hr'))]
  · decide

/-- Witness for C5: the unknown-key statement applied at the §8 scenario
`E`, `U = [(4,"z")]`. -/
theorem reconcile_unknown_keys_witness :
    reconcile exRecords [(Val.int 4, Val.str "z")] "id" "val" = exRecords :=
  (reconcile_unknown_keys exRecords [(Val.int 4, Val.str "z")] "id" "val"
    (by decide)).1

/-! ## The record store and `ElectrodeSortingInfo.set_group_by_shank`

The store is modelled as lists of rows.  `fetchWhere` is the
field-equality query (`Table() & {...}`), `insertReplace` the
`insert(..., replace="True")` upsert on the `(nwb_file_name,
electrode_id)` primary key, and `npUnique` the sorted deduplication
performed by `np.unique`. -/

def charListLe : List Char → List Char → Bool
  | [], _ => true
  | _ :: _, [] => false
  | a :: as, b :: bs => if a = b then charListLe as bs else decide (a < b)

def valLe : Val → Val → Bool
  | .int a, .int b => decide (a ≤ b)
  | .int _, _ => true
  | .str _, .int _ => false
  | .str a, .str b => charListLe a.data b.data
  | .str _, .ivls _ => true
  | .ivls _, .ivls _ => true
  | .ivls _, _ => false

def insertSorted (a : Val) : List Val → List Val
  | [] => [a]
  | b :: rest =>
    if valLe a b then a :: b :: rest else b :: insertSorted a rest

/-- `np.unique`: the sorted list of the distinct values. -/
def npUnique (l : List Val) : List Val :=
  (l.foldr insertSorted []).dedup

/-- One column of a fetched row set (`rows['field']`). -/
def column (rows : List Record) (f : String) : List Val :=
  rows.filterMap (fun r => getField r f)

def rowMatches (r : Record) (conds : List (String × Val)) : Bool :=
  conds.all (fun c => decide (getField r c.1 = some c.2))

/-- `(Table() & {field: value, ...}).fetch()`. -/
def fetchWhere (tab : List Record) (conds : List (String × Val)) : List Record :=
  tab.filter (fun r => rowMatches r conds)

/-- Rows agree on the `(nwb_file_name, electrode_id)` primary key. -/
def samePrimaryKey (r s : Record) : Bool :=
  decide (getField s "nwb_file_name" = getField r "nwb_file_name") &&
  decide (getField s "electrode_id" = getField r "electrode_id")

def upsertRow (tab : List Record) (row : Record) : List Record :=
  if tab.any (fun s => samePrimaryKey row s) then
    tab.map (fun s => if samePrimaryKey row s then row else s)
  else tab ++ [row]

/-- `self.insert(rows, replace="True")`: upsert each row in order. -/
def insertReplace (tab : List Record) (rows : List Record) : List Record :=
  rows.foldl upsertRow tab

/-- `ElectrodeSortingInfo.set_group_by_shank` (source lines 171–203): the
electrodes of the file are fetched, the current sorting info is fetched
ONCE (line 183) into `elect_sort_info`, and then, for every electrode
group and every shank of that group, the electrodes of that shank are
paired with the running `sort_group` number, reconciled against
`elect_sort_info` via `dj_replace`, and the result upserted into the
table (line 202).  `etab` is `ElectrodeConfig.Electrode`, `stab` the
`ElectrodeSortingInfo` table; the updated `ElectrodeSortingInfo` table is
returned. -/
def set_group_by_shank (etab stab : List Record) (nwb_file_name : String) :
    List Record :=
  let electrodes := fetchWhere etab
    [("nwb_file_name", .str nwb_file_name), ("bad_channel", .str "False")]
  let elect_sort_info := fetchWhere stab [("nwb_file_name", .str nwb_file_name)]
  let e_groups := npUnique (column electrodes "electrode_group_name")
  (e_groups.foldl (fun acc e_group =>
    let groupElectrodes := electrodes.filter
      (fun r => decide (getField r "electrode_group_name" = some e_group))
    let shank_list := npUnique (column groupElectrodes "probe_shank")
    shank_list.foldl (fun acc shank =>
      let shank_elect := column (groupElectrodes.filter
        (fun r => decide (getField r "probe_shank" = some shank)))
        "electrode_id"
      let new_group := shank_elect.map (fun e => (e, Val.int acc.2))
      (insertReplace acc.1
        (reconcile elect_sort_info new_group "electrode_id" "sort_group"),
       acc.2 + 1)) acc) ((stab, 0) : List Record × Int)).1

/-- The lifecycle the specification prescribes for the same operation
(§3: "a Record collection is read fresh from the store immediately before
reconciliation"): identical to `set_group_by_shank` except that
`elect_sort_info` is re-fetched from the current table immediately before
every reconciliation call. -/
def set_group_by_shank_freshRead (etab stab : List Record)
    (nwb_file_name : String) : List Record :=
  let electrodes := fetchWhere etab
    [("nwb_file_name", .str nwb_file_name), ("bad_channel", .str "False")]
  let e_groups := npUnique (column electrodes "electrode_group_name")
  (e_groups.foldl (fun acc e_group =>
    let groupElectrodes := electrodes.filter
      (fun r => decide (getField r "electrode_group_name" = some e_group))
    let shank_list := npUnique (column groupElectrodes "probe_shank")
    shank_list.foldl (fun acc shank =>
      let shank_elect := column (groupElectrodes.filter
        (fun r => decide (getField r "probe_shank" = some shank)))
        "electrode_id"
      let new_group := shank_elect.map (fun e => (e, Val.int acc.2))
      let elect_sort_info := fetchWhere acc.1
        [("nwb_file_name", .str nwb_file_name)]
      (insertReplace acc.1
        (reconcile elect_sort_info new_group "electrode_id" "sort_group"),
       acc.2 + 1)) acc) ((stab, 0) : List Record × Int)).1

/-- The `sort_group` recorded for an electrode id. -/
def sortGroupOf (tab : List Record) (eid : Int) : Option Val :=
  (tab.find? (fun r => decide (getField r "electrode_id" = some (Val.int eid))))
    |>.bind (fun r => getField r "sort_group")

/-- Two good electrodes of file "f", in two distinct electrode groups
(one shank each): the minimal input on which `set_group_by_shank` issues
two reconciliation calls. -/
def etabC3 : List Record :=
  [[("nwb_file_name", .str "f"), ("electrode_id", .int 1),
    ("electrode_group_name", .str "a"), ("probe_shank", .int 0),
    ("bad_channel", .str "False")],
   [("nwb_file_name", .str "f"), ("electrode_id", .int 2),
    ("electrode_group_name", .str "b"), ("probe_shank", .int 0),
    ("bad_channel", .str "False")]]

/-- The `ElectrodeSortingInfo` table after `initialize`: both electrodes
carry the default `sort_group = -1`. -/
def stabC3 : List Record :=
  [[("nwb_file_name", .str "f"), ("electrode_id", .int 1),
    ("sort_group", .int (-1)), ("reference_electrode", .int (-1))],
   [("nwb_file_name", .str "f"), ("electrode_id", .int 2),
    ("sort_group", .int (-1)), ("reference_electrode", .int (-1))]]

/-- C3: the reconciliation calls of `set_group_by_shank` do NOT each
operate on a collection read fresh from the store: `elect_sort_info` is
fetched once, before the loop, so the second reconciliation reuses the
snapshot made stale by the first write and its upsert reverts electrode
1's freshly assigned group 0 back to the stale -1.  Reading fresh before
each call — the lifecycle the claim describes — would leave electrode 1
in group 0 and electrode 2 in group 1. -/
theorem set_group_by_shank_stale_snapshot :
    sortGroupOf (set_group_by_shank etabC3 stabC3 "f") 1 =
      some (Val.int (-1)) ∧
    sortGroupOf (set_group_by_shank etabC3 stabC3 "f") 2 =
      some (Val.int 1) ∧
    sortGroupOf (set_group_by_shank_freshRead etabC3 stabC3 "f") 1 =
      some (Val.int 0) ∧
    sortGroupOf (set_group_by_shank_freshRead etabC3 stabC3 "f") 2 =
      some (Val.int 1) := by
  decide

/-! ## C6 — duplicate-key policies at the module's insert call sites -/

/-- The duplicate-key policy passed at an `insert`/`insert1` call site:
`skip` (`skip_duplicates=True`), `replace` (`replace="True"`), or the
implicit default when neither keyword is passed. -/
inductive DupPolicy where
  | implicitDefault
  | skip
  | replace
deriving DecidableEq, Repr

/-- One `insert`/`insert1` call site of `common_ephys.py`. -/
structure InsertCall where
  site : String
  line : Nat
  policy : DupPolicy
deriving DecidableEq, Repr

/-- Every record-store `insert`/`insert1` call performed by
`common_ephys.py`, with the duplicate policy written at the call site. -/
def insertCalls : List InsertCall :=
  [⟨"ElectrodeConfig.make master insert1", 70, .implicitDefault⟩,
   ⟨"ElectrodeConfig.make BrainRegion insert1", 89, .implicitDefault⟩,
   ⟨"ElectrodeConfig.make ElectrodeGroup insert1", 105, .skip⟩,
   ⟨"ElectrodeConfig.make Electrode insert1", 144, .skip⟩,
   ⟨"ElectrodeSortingInfo default-rows insert", 168, .replace⟩,
   ⟨"ElectrodeSortingInfo.set_group_by_shank insert", 202, .replace⟩,
   ⟨"ElectrodeSortingInfo.set_group_by_electrode_group insert", 224, .replace⟩,
   ⟨"ElectrodeSortingInfo.set_reference_from_electrodes insert", 242, .replace⟩,
   ⟨"ElectrodeSortingInfo.set_reference_from_list insert", 253, .replace⟩,
   ⟨"SpikeSorter.insert_from_spikeinterface insert1", 325, .replace⟩,
   ⟨"SpikeSorterParameters.insert_from_spikeinterface insert1", 349, .replace⟩,
   ⟨"Unit.insert_from_nwbfile IntervalList insert1", 390, .skip⟩,
   ⟨"Unit.insert_from_nwbfile Unit insert1", 404, .implicitDefault⟩,
   ⟨"Raw.make IntervalList insert1", 443, .skip⟩,
   ⟨"Raw.make Raw insert1", 453, .skip⟩,
   ⟨"LFPElectrode.set_lfp_electrodes insert1", 491, .replace⟩,
   ⟨"LFP.make LFP insert1", 592, .implicitDefault⟩]

/-- Counterexample to C6 as stated: the `Unit` row insert of
`Unit.insert_from_nwbfile` (line 404) — one of the very call sites the
claim cites — passes no duplicate-policy parameter, so not every insert
of the module resolves duplicate-key conflicts via an explicit policy. -/
theorem insertCalls_not_all_explicit :
    (⟨"Unit.insert_from_nwbfile Unit insert1", 404,
        DupPolicy.implicitDefault⟩ : InsertCall) ∈ insertCalls ∧
    ¬ ∀ c ∈ insertCalls, c.policy ≠ DupPolicy.implicitDefault := by
  decide

/-- C6 amended: every insert of the module passes an explicit
duplicate-key policy (skip or replace) at the call site, except the four
sites at lines 70, 89, 404 and 592, which rely on the implicit default. -/
theorem insertCalls_explicit_except_four (c : InsertCall)
    (hc : c ∈ insertCalls) (h70 : c.line ≠ 70) (h89 : c.line ≠ 89)
    (h404 : c.line ≠ 404) (h592 : c.line ≠ 592) :
    c.policy ≠ DupPolicy.implicitDefault := by
  fin_cases hc <;> simp_all

/-- Witness for the amended C6, at the `replace="True"` insert of
`ElectrodeSortingInfo` (line 168). -/
theorem insertCalls_explicit_except_four_witness :
    (⟨"ElectrodeSortingInfo default-rows insert", 168,
        DupPolicy.replace⟩ : InsertCall) ∈ insertCalls ∧
    (⟨"ElectrodeSortingInfo default-rows insert", 168,
        DupPolicy.replace⟩ : InsertCall).policy ≠ DupPolicy.implicitDefault :=
  ⟨by decide,
   insertCalls_explicit_except_four
     ⟨"ElectrodeSortingInfo default-rows insert", 168, DupPolicy.replace⟩
     (by decide) (by decide) (by decide) (by decide) (by decide)⟩

/-! ## C7 — `LFP.make` when no filter matches the sampling rate -/

/-- A row of the `FirFilter` table (the fields `LFP.make` reads). -/
structure FirFilterRow where
  filter_name : String
  filter_sampling_rate : Int
  filter_coeff : List Int
deriving DecidableEq, Repr

/-- The persistent side effects of the tail of `LFP.make`: creating the
linked NWB file, writing the filtered-data HDF5 file, writing the new
electrical series, and inserting one LFP row per electrode. -/
inductive LFPEffect where
  | createLinkedNwb
  | writeHdf5
  | writeLinkedNwb
  | insertLFPRow (electrode_id : Int)
deriving DecidableEq, Repr

/-- `LFP.make` (source lines 511–592), abstracted over the result of the
`FirFilter` query and the selected LFP electrodes.  The query result is
indexed as `filter[0]` (lines 533–536) BEFORE the
`len(filter_coeff) == 0` guard (line 537), so an empty query result
raises `IndexError`; the guard's print-and-return path produces no
effects; otherwise the derived files are written and one LFP row is
inserted per electrode. -/
def lfp_make (ftab : List FirFilterRow) (sampling_rate : Int)
    (electrode_id_list : List Int) : Except String (List LFPEffect) :=
  let filter := ftab.filter (fun f =>
    decide (f.filter_name = "LFP 0-400 Hz") &&
    decide (f.filter_sampling_rate = sampling_rate))
  match filter[0]? with
  | none => .error "IndexError"
  | some f0 =>
    if f0.filter_coeff.length = 0 then .ok []
    else .ok ([.createLinkedNwb, .writeHdf5, .writeLinkedNwb] ++
      electrode_id_list.map .insertLFPRow)

/-- A `FirFilter` table holding only a 20 kHz filter: the query for a
30 kHz session matches nothing. -/
def ftabC7 : List FirFilterRow := [⟨"LFP 0-400 Hz", 20000, [1, 2, 1]⟩]

/-- C7: on a session whose sampling rate matches no stored filter,
`LFP.make` raises `IndexError` at `filter[0]` instead of reporting the
missing filter and returning — the `print`-and-`return None` branch
(lines 537–539) is reachable only when a matching filter row exists with
an empty coefficient array (second conjunct).  No derived file is
created and no LFP row is inserted in either case. -/
theorem lfp_make_no_filter_raises :
    lfp_make ftabC7 30000 [0, 1] = .error "IndexError" ∧
    lfp_make [⟨"LFP 0-400 Hz", 30000, []⟩] 30000 [0, 1] =
      .ok ([] : List LFPEffect) :=
  ⟨rfl, rfl⟩

/-! ## C8 — `LFPElectrode.set_lfp_electrodes` -/

/-- The primary key of `ElectrodeConfig.Electrode` (and the full row of
the key-only `LFPElectrode` table). -/
structure ElecKey where
  nwb_file_name : String
  electrode_id : Int
deriving DecidableEq, Repr

/-- An `ElectrodeConfig.Electrode` row (the fields these methods read). -/
structure ElecRow where
  nwb_file_name : String
  electrode_id : Int
  bad_channel : String
deriving DecidableEq, Repr

def ElecRow.key (e : ElecRow) : ElecKey := ⟨e.nwb_file_name, e.electrode_id⟩

/-- `insert1(..., replace='True')` on the key-only `LFPElectrode` table:
replacing an existing row with an equal key leaves the table unchanged;
otherwise the row is appended. -/
def upsertKey (store : List ElecKey) (k : ElecKey) : List ElecKey :=
  if k ∈ store then store else store ++ [k]

/-- One iteration of the insert loop of `set_lfp_electrodes` (source
lines 487–491): rows whose `electrode_id` lies in `electrode_list` are
upserted, all others skipped. -/
def lfpInsertStep (electrode_list : List Int) (s : List ElecKey)
    (e : ElecRow) : List ElecKey :=
  if e.electrode_id ∈ electrode_list then upsertKey s e.key else s

/-- `LFPElectrode.set_lfp_electrodes` (source lines 475–491): delete all
`LFPElectrode` rows of the named file, then walk ALL
`ElectrodeConfig.Electrode` rows (of every nwb file) and upsert the
primary key of each one whose `electrode_id` is in `electrode_list`. -/
def set_lfp_electrodes (store : List ElecKey) (etab : List ElecRow)
    (nwb_file_name : String) (electrode_list : List Int) : List ElecKey :=
  let store' := store.filter (fun k => decide (k.nwb_file_name ≠ nwb_file_name))
  etab.foldl (lfpInsertStep electrode_list) store'

theorem mem_upsertKey_elim {store : List ElecKey} {a k : ElecKey}
    (h : a ∈ upsertKey store k) : a ∈ store ∨ a = k := by
  by_cases hk : k ∈ store
  · simp only [upsertKey, if_pos hk] at h
    exact Or.inl h
  · simp only [upsertKey, if_neg hk, List.mem_append,
      List.mem_singleton] at h
    exact h

theorem mem_upsertKey_self (store : List ElecKey) (k : ElecKey) :
    k ∈ upsertKey store k := by
  by_cases hk : k ∈ store
  · simpa [upsertKey, if_pos hk] using hk
  · simp [upsertKey, if_neg hk]

theorem mem_upsertKey_of_mem {store : List ElecKey} {a : ElecKey}
    (k : ElecKey) (h : a ∈ store) : a ∈ upsertKey store k := by
  by_cases hk : k ∈ store
  · simpa [upsertKey, if_pos hk] using h
  · simp [upsertKey, if_neg hk, h]

theorem lfp_foldl_preserves (elist : List Int) :
    ∀ (l : List ElecRow) (s : List ElecKey) (a : ElecKey), a ∈ s →
      a ∈ l.foldl (lfpInsertStep elist) s := by
  intro l
  induction l with
  | nil => intro s a h; exact h
  | cons e rest ih =>
    intro s a h
    apply ih
    unfold lfpInsertStep
    by_cases he : e.electrode_id ∈ elist
    · rw [if_pos he]
      exact mem_upsertKey_of_mem e.key h
    · rwa [if_neg he]

theorem lfp_foldl_inserts (elist : List Int) :
    ∀ (l : List ElecRow) (s : List ElecKey) (e : ElecRow), e ∈ l →
      e.electrode_id ∈ elist →
      e.key ∈ l.foldl (lfpInsertStep elist) s := by
  intro l
  induction l with
  | nil => intro s e he; cases he
  | cons e' rest ih =>
    intro s e he heid
    rcases List.mem_cons.mp he with rfl | hrest
    · simp only [List.foldl_cons]
      apply lfp_foldl_preserves
      unfold lfpInsertStep
      rw [if_pos heid]
      exact mem_upsertKey_self _ _
    · simp only [List.foldl_cons]
      exact ih _ e hrest heid

theorem lfp_foldl_invariant (nwb : String) (elist : List Int) :
    ∀ (l : List ElecRow) (s : List ElecKey),
      (∀ k ∈ s, k.nwb_file_name = nwb → k.electrode_id ∈ elist) →
      ∀ k ∈ l.foldl (lfpInsertStep elist) s,
        k.nwb_file_name = nwb → k.electrode_id ∈ elist := by
  intro l
  induction l with
  | nil => intro s hs; exact hs
  | cons e rest ih =>
    intro s hs
    apply ih
    intro k hk hknwb
    unfold lfpInsertStep at hk
    by_cases he : e.electrode_id ∈ elist
    · rw [if_pos he] at hk
      rcases mem_upsertKey_elim hk with hmem | hkey
      · exact hs k hmem hknwb
      · rw [hkey]
        exact he
    · rw [if_neg he] at hk
      exact hs k hk hknwb

/-- C8: after `set_lfp_electrodes store etab nwb elist`, every
`LFPElectrode` row of file `nwb` has an `electrode_id` in `elist`
(everything else of that file was first deleted), and every
`ElectrodeConfig.Electrode` row — from any nwb file — whose id is in
`elist` has its primary key present (it was upserted). -/
theorem set_lfp_electrodes_post (store : List ElecKey) (etab : List ElecRow)
    (nwb : String) (elist : List Int) :
    (∀ k ∈ set_lfp_electrodes store etab nwb elist,
       k.nwb_file_name = nwb → k.electrode_id ∈ elist) ∧
    (∀ e ∈ etab, e.electrode_id ∈ elist →
       e.key ∈ set_lfp_electrodes store etab nwb elist) := by
  constructor
  · apply lfp_foldl_invariant nwb elist etab
    intro k hk hknwb
    rw [List.mem_filter] at hk
    exact absurd hknwb (by simpa using hk.2)
  · intro e he heid
    exact lfp_foldl_inserts elist etab _ e he heid

/-- Witness for C8: store `[{nwb:"f", id:99}]`, electrodes of files "f"
and "g" with ids 1 and 1, `electrode_list = [1]`: the key `("f",1)` is
present afterwards, and it indeed has its id in the list. -/
theorem set_lfp_electrodes_post_witness :
    (⟨"f", 1⟩ : ElecKey) ∈
      set_lfp_electrodes [⟨"f", 99⟩]
        [⟨"f", 1, "False"⟩, ⟨"g", 1, "False"⟩] "f" [1] ∧
    (⟨"f", 1⟩ : ElecKey).electrode_id ∈ [(1 : Int)] :=
  ⟨(set_lfp_electrodes_post [⟨"f", 99⟩]
      [⟨"f", 1, "False"⟩, ⟨"g", 1, "False"⟩] "f" [1]).2
      ⟨"f", 1, "False"⟩ (by decide) (by decide),
   (set_lfp_electrodes_post [⟨"f", 99⟩]
      [⟨"f", 1, "False"⟩, ⟨"g", 1, "False"⟩] "f" [1]).1
      ⟨"f", 1⟩ (by decide) (by decide)⟩

/-! ## C9 — `Unit.insert_from_nwbfile` -/

/-- One row of the source file's units table (the fields the method
reads); `unit_row_id` is `none` when reading `units.iloc[unum]['id']`
raises (the `try`/`except` at lines 393–396 then falls back to `unum`). -/
structure UnitRec where
  obs_intervals : List (Int × Int)
  unit_row_id : Option Int
  electrode_group_name : String
  cluster_name : String
deriving DecidableEq, Repr

/-- The inserts `Unit.insert_from_nwbfile` can perform: an `IntervalList`
row per unit, and the final `Unit` row. -/
inductive UnitEffect where
  | intervalInsert (interval_list_name : String)
  | unitInsert (unit_id : Int)
deriving DecidableEq, Repr

def isUnitInsert : UnitEffect → Bool
  | .unitInsert _ => true
  | _ => false

/-- The outcome of a run: the inserts performed, and the uncaught Python
exception, if any, that ended it. -/
structure UnitRunResult where
  effects : List UnitEffect
  error : Option String
deriving DecidableEq, Repr

/-- The per-unit loop of `Unit.insert_from_nwbfile` (source lines
384–404): the interval-list dict receives `interval_list_name` and
`valid_times`, the `IntervalList` row is inserted, the unit id is read
with the `unum` fallback, and then the code reads
`interval_list_dict['interval_name']` (line 400) — a key never
assigned — so a populated dict without it makes the iteration end in
`KeyError` before `self.insert1`. -/
def unitLoop (nwb_file_name : String) :
    List UnitRec → Nat → Record → List UnitEffect → UnitRunResult
  | [], _, _, effects => ⟨effects, none⟩
  | u :: rest, unum, d, effects =>
    let iname := "unit " ++ toString unum ++ " interval list"
    let d := dictSet d "interval_list_name" (.str iname)
    let d := dictSet d "valid_times" (.ivls u.obs_intervals)
    let effects := effects ++ [.intervalInsert iname]
    let unit_id : Int := match u.unit_row_id with
      | some i => i
      | none => (unum : Int)
    match getField d "interval_name" with
    | none => ⟨effects, some "KeyError"⟩
    | some _ =>
      unitLoop nwb_file_name rest (unum + 1) d
        (effects ++ [.unitInsert unit_id])

/-- `Unit.insert_from_nwbfile` (source lines 377–404): start the
interval-list dict with `nwb_file_name`; with no units container, print
and return; otherwise run the per-unit loop. -/
def insert_from_nwbfile (units : Option (List UnitRec))
    (nwb_file_name : String) : UnitRunResult :=
  let d : Record := [("nwb_file_name", .str nwb_file_name)]
  match units with
  | none => ⟨[], none⟩
  | some us => unitLoop nwb_file_name us 0 d []

theorem getField_append (l1 l2 : Record) (g : String) :
    getField (l1 ++ l2) g =
      match getField l1 g with
      | some v => some v
      | none => getField l2 g := by
  induction l1 with
  | nil => rfl
  | cons p rest ih =>
    obtain ⟨a, b⟩ := p
    by_cases h : a = g <;> simp [getField, h, ih]

theorem getField_dictSet_ne (d : Record) (f g : String) (v : Val)
    (h : f ≠ g) : getField (dictSet d f v) g = getField d g := by
  unfold dictSet
  by_cases hs : (getField d f).isSome
  · rw [if_pos hs]
    exact getField_setField_ne d f g v h
  · rw [if_neg hs, getField_append]
    cases getField d g with
    | some w => rfl
    | none => simp [getField, h]

theorem unitLoop_no_unit_insert (nwb : String) :
    ∀ (us : List UnitRec) (unum : Nat) (d : Record)
      (effects : List UnitEffect),
      getField d "interval_name" = none →
      (unitLoop nwb us unum d effects).effects.filter isUnitInsert =
        effects.filter isUnitInsert ∧
      (us ≠ [] → (unitLoop nwb us unum d effects).error = some "KeyError") := by
  intro us
  cases us with
  | nil =>
    intro unum d effects _
    exact ⟨rfl, fun h => absurd rfl h⟩
  | cons u rest =>
    intro unum d effects hd
    have hd1 : getField (dictSet (dictSet d "interval_list_name"
        (.str ("unit " ++ toString unum ++ " interval list")))
        "valid_times" (.ivls u.obs_intervals)) "interval_name" = none := by
      rw [getField_dictSet_ne _ _ _ _ (by decide),
        getField_dictSet_ne _ _ _ _ (by decide)]
      exact hd
    unfold unitLoop
    dsimp only
    rw [hd1]
    refine ⟨?_, fun _ => rfl⟩
    simp [List.filter_append, isUnitInsert]

/-- C9: `Unit.insert_from_nwbfile` never inserts a `Unit` row.  With no
units container it returns having inserted nothing; with at least one
unit it reads `interval_list_dict['interval_name']` — a key it never
wrote (it stores `'interval_list_name'`) — so the run ends in `KeyError`
before any `self.insert1` is reached. -/
theorem unit_insert_from_nwbfile_never_inserts
    (units : Option (List UnitRec)) (nwb : String) :
    (insert_from_nwbfile units nwb).effects.filter isUnitInsert = [] ∧
    (units = none → insert_from_nwbfile units nwb = ⟨[], none⟩) ∧
    (∀ us, units = some us → us ≠ [] →
      (insert_from_nwbfile units nwb).error = some "KeyError") := by
  have hd : getField [("nwb_file_name", Val.str nwb)] "interval_name" =
      none := by
    simp only [getField]
    rw [if_neg (by decide)]
  cases units with
  | none =>
    refine ⟨rfl, fun _ => rfl, ?_⟩
    intro us h
    exact nomatch h
  | some us =>
    refine ⟨(unitLoop_no_unit_insert nwb us 0 _ [] hd).1, ?_, ?_⟩
    · intro h
      exact nomatch h
    · intro us' h hne
      cases h
      exact (unitLoop_no_unit_insert nwb us 0 _ [] hd).2 hne

/-- Witness for C9, at a one-unit file: no `Unit` row is inserted and the
run ends in `KeyError`. -/
theorem unit_insert_from_nwbfile_never_inserts_witness :
    (insert_from_nwbfile (some [⟨[(0, 1)], some 5, "eg0", "t5 c4"⟩])
        "beans.nwb").effects.filter isUnitInsert = [] ∧
    (insert_from_nwbfile (some [⟨[(0, 1)], some 5, "eg0", "t5 c4"⟩])
        "beans.nwb").error = some "KeyError" :=
  ⟨(unit_insert_from_nwbfile_never_inserts
      (some [⟨[(0, 1)], some 5, "eg0", "t5 c4"⟩]) "beans.nwb").1,
   (unit_insert_from_nwbfile_never_inserts
      (some [⟨[(0, 1)], some 5, "eg0", "t5 c4"⟩]) "beans.nwb").2.2
      [⟨[(0, 1)], some 5, "eg0", "t5 c4"⟩] rfl (by decide)⟩

/-! ## C10 — `ElectrodeSortingInfo.initialize` -/

/-- A row of the `ElectrodeSortingInfo` table: the electrode key plus the
two defaulted attributes (`sort_group=-1`, `reference_electrode=-1`). -/
structure SortRow where
  nwb_file_name : String
  electrode_id : Int
  sort_group : Int
  reference_electrode : Int
deriving DecidableEq, Repr

def sortKeyMatches (s row : SortRow) : Bool :=
  decide (s.nwb_file_name = row.nwb_file_name) &&
  decide (s.electrode_id = row.electrode_id)

/-- `insert(..., replace="True")` on `ElectrodeSortingInfo`: replace the
row with the same `(nwb_file_name, electrode_id)` primary key, or append. -/
def upsertSortRow (tab : List SortRow) (row : SortRow) : List SortRow :=
  if tab.any (fun s => sortKeyMatches s row) then
    tab.map (fun s => if sortKeyMatches s row then row else s)
  else tab ++ [row]

/-- `ElectrodeSortingInfo.initialize` (source lines 158–168; the method
name is kept in this comment): fetch the electrodes of the file with
`bad_channel='False'`, keep only the key columns
`['nwb_file_name', 'electrode_id']`, and insert with `replace="True"`;
the omitted attributes take the table defaults
`sort_group=-1, reference_electrode=-1`. -/
def initSortingInfo (stab : List SortRow) (etab : List ElecRow)
    (nwb_file_name : String) : List SortRow :=
  let electrodes := etab.filter (fun e =>
    decide (e.nwb_file_name = nwb_file_name) &&
    decide (e.bad_channel = "False"))
  let electrode_sorting_info := electrodes.map (fun e =>
    (⟨e.nwb_file_name, e.electrode_id, -1, -1⟩ : SortRow))
  electrode_sorting_info.foldl upsertSortRow stab

theorem mem_upsertSortRow_elim {tab : List SortRow} {a row : SortRow}
    (h : a ∈ upsertSortRow tab row) : a ∈ tab ∨ a = row := by
  unfold upsertSortRow at h
  by_cases hc : tab.any (fun s => sortKeyMatches s row)
  · rw [if_pos hc] at h
    rcases List.mem_map.mp h with ⟨t, ht, hta⟩
    by_cases hm : sortKeyMatches t row
    · rw [if_pos hm] at hta
      exact Or.inr hta.symm
    · rw [if_neg hm] at hta
      exact Or.inl (hta ▸ ht)
  · rw [if_neg hc, List.mem_append, List.mem_singleton] at h
    exact h

theorem self_mem_upsertSortRow (tab : List SortRow) (row : SortRow) :
    row ∈ upsertSortRow tab row := by
  unfold upsertSortRow
  by_cases hc : tab.any (fun s => sortKeyMatches s row)
  · rw [if_pos hc]
    rcases List.any_eq_true.mp hc with ⟨t, ht, hm⟩
    exact List.mem_map.mpr ⟨t, ht, by rw [if_pos hm]⟩
  · rw [if_neg hc]
    simp

theorem mem_upsertSortRow_of_mem {tab : List SortRow} {a : SortRow}
    (row : SortRow) (h : a ∈ tab)
    (hkey : sortKeyMatches a row = true → a = row) :
    a ∈ upsertSortRow tab row := by
  unfold upsertSortRow
  by_cases hc : tab.any (fun s => sortKeyMatches s row)
  · rw [if_pos hc]
    by_cases hm : sortKeyMatches a row
    · rw [hkey hm] at h ⊢
      exact List.mem_map.mpr ⟨row, h, by rw [if_pos (by simp [sortKeyMatches])]⟩
    · exact List.mem_map.mpr ⟨a, h, by rw [if_neg hm]⟩
  · rw [if_neg hc, List.mem_append]
    exact Or.inl h

theorem mem_foldl_upsertSortRow_of_mem_tab :
    ∀ (rows tab : List SortRow) (a : SortRow), a ∈ tab →
      (∀ q ∈ rows, sortKeyMatches a q = true → a = q) →
      a ∈ rows.foldl upsertSortRow tab := by
  intro rows
  induction rows with
  | nil => intro tab a h _; exact h
  | cons q rest ih =>
    intro tab a h hq
    simp only [List.foldl_cons]
    apply ih _ a
    · exact mem_upsertSortRow_of_mem q h
        (hq q (List.mem_cons_self q rest))
    · exact fun q' hq' => hq q' (List.mem_cons_of_mem q hq')

theorem mem_foldl_upsertSortRow_of_mem_rows :
    ∀ (rows tab : List SortRow) (a : SortRow), a ∈ rows →
      (∀ q ∈ rows, sortKeyMatches a q = true → a = q) →
      a ∈ rows.foldl upsertSortRow tab := by
  intro rows
  induction rows with
  | nil => intro tab a h; cases h
  | cons q rest ih =>
    intro tab a h hq
    simp only [List.foldl_cons]
    rcases List.mem_cons.mp h with rfl | hrest
    · apply mem_foldl_upsertSortRow_of_mem_tab rest _ a
        (self_mem_upsertSortRow tab a)
      exact fun q' hq' => hq q' (List.mem_cons_of_mem a hq')
    · exact ih _ a hrest (fun q' hq' => hq q' (List.mem_cons_of_mem q hq'))

theorem mem_foldl_upsertSortRow_elim :
    ∀ (rows tab : List SortRow) (a : SortRow),
      a ∈ rows.foldl upsertSortRow tab → a ∈ tab ∨ a ∈ rows := by
  intro rows
  induction rows with
  | nil => intro tab a h; exact Or.inl h
  | cons q rest ih =>
    intro tab a h
    simp only [List.foldl_cons] at h
    rcases ih _ a h with hup | hin
    · rcases mem_upsertSortRow_elim hup with htab | rfl
      · exact Or.inl htab
      · exact Or.inr (List.mem_cons_self a rest)
    · exact Or.inr (List.mem_cons_of_mem q hin)

/-- C10: `initialize` upserts, for each electrode of the file with
`bad_channel = 'False'`, exactly the default row
`(nwb_file_name, electrode_id, sort_group=-1, reference_electrode=-1)`;
every row of the resulting table is either an old row or such a default
row of a good electrode (so electrodes with `bad_channel='True'` receive
no row); and on a fresh store with one good, one bad and one
foreign-file electrode, the result is exactly the good electrode's
default row. -/
theorem initSortingInfo_post (stab : List SortRow) (etab : List ElecRow)
    (nwb : String) :
    (∀ e ∈ etab, e.nwb_file_name = nwb → e.bad_channel = "False" →
       (⟨nwb, e.electrode_id, -1, -1⟩ : SortRow) ∈
         initSortingInfo stab etab nwb) ∧
    (∀ s ∈ initSortingInfo stab etab nwb, s ∈ stab ∨
       ∃ e ∈ etab, e.nwb_file_name = nwb ∧ e.bad_channel = "False" ∧
         s = ⟨nwb, e.electrode_id, -1, -1⟩) ∧
    initSortingInfo []
      [⟨"f", 1, "False"⟩, ⟨"f", 2, "True"⟩, ⟨"g", 3, "False"⟩] "f" =
      [⟨"f", 1, -1, -1⟩] := by
  refine ⟨?_, ?_, by decide⟩
  · intro e he henwb hegood
    apply mem_foldl_upsertSortRow_of_mem_rows
    · refine List.mem_map.mpr ⟨e, ?_, by rw [henwb]⟩
      rw [List.mem_filter]
      exact ⟨he, by simp [henwb, hegood]⟩
    · intro q hq hkey
      rcases List.mem_map.mp hq with ⟨e', he', rfl⟩
      simp only [sortKeyMatches, Bool.and_eq_true, decide_eq_true_eq] at hkey
      rw [List.mem_filter] at he'
      have : e'.nwb_file_name = nwb := by
        have := he'.2
        simp only [Bool.and_eq_true, decide_eq_true_eq] at this
        exact this.1
      simp [this, ← hkey.2]
  · intro s hs
    rcases mem_foldl_upsertSortRow_elim _ _ s hs with htab | hrows
    · exact Or.inl htab
    · rcases List.mem_map.mp hrows with ⟨e, he, rfl⟩
      rw [List.mem_filter] at he
      have h2 := he.2
      simp only [Bool.and_eq_true, decide_eq_true_eq] at h2
      exact Or.inr ⟨e, he.1, h2.1, h2.2, by rw [h2.1]⟩

/-- Witness for C10: on the concrete table of the third conjunct, the
good electrode's default row is present, and every row of the result is
accounted for. -/
theorem initSortingInfo_post_witness :
    (⟨"f", 1, -1, -1⟩ : SortRow) ∈
      initSortingInfo []
        [⟨"f", 1, "False"⟩, ⟨"f", 2, "True"⟩, ⟨"g", 3, "False"⟩] "f" :=
  (initSortingInfo_post []
      [⟨"f", 1, "False"⟩, ⟨"f", 2, "True"⟩, ⟨"g", 3, "False"⟩] "f").1
    ⟨"f", 1, "False"⟩ (by decide) (by decide) (by decide)

end Spyglass
